import Mathlib

/-!
Verification of the eosal signal-map compiler scripts.

Part 1 embeds `src/scripts/bin-to-c.py` (the signals-to-C compiler): the
type registry `osal_typeinfo`, the footprint computation
`calc_signal_memory_sz`, the per-signal layout step
`write_signal_to_c_source`, and the signal/group/block/device processing
drivers.  Python integers are modelled as `Int`; a Python function that can
raise (KeyError, or `print` + `exit()`) is modelled as `Option`/`Except`.
The textual C output is modelled by the data it carries: the header stream as
the list of declared field names, the source stream as the list of emitted
descriptor records.

Part 2 embeds `src/scripts/merge_json.py` (the JSON merge preprocessor).
-/

namespace EosalSignals

/-- The `osal_typeinfo` dictionary of bin-to-c.py (size excludes the signal
state byte).  A Python dict lookup of a missing key raises KeyError, which is
modelled as `none`. -/
def osal_typeinfo : String → Option Int
  | "undef" => some 0
  | "boolean" => some 1
  | "char" => some 1
  | "uchar" => some 1
  | "short" => some 2
  | "ushort" => some 2
  | "int" => some 3
  | "uint" => some 3
  | "int64" => some 8
  | "long" => some 8
  | "float" => some 4
  | "double" => some 8
  | "dec01" => some 2
  | "dec001" => some 2
  | "str" => some 1
  | "object" => some 0
  | "pointer" => some 0
  | _ => none

/-- `calc_signal_memory_sz` of bin-to-c.py, faithful to the source text: in
the boolean branch the statement `return (array_n + 7) / 8 + 1` is indented
inside the `if array_n == 1:` suite, after `return 1`, so it is unreachable
(the `#else` comment above it is at the outer level).  A boolean signal with
`array_n != 1` therefore falls through to the generic path and yields
`array_n * osal_typeinfo["boolean"] + 1 = array_n + 1`. -/
def calc_signal_memory_sz (ty : String) (array_n : Int) : Option Int :=
  if ty = "boolean" ∧ array_n = 1 then
    some 1
  else
    match osal_typeinfo ty with
    | none => none
    | some type_sz => some (array_n * type_sz + 1)

/-- One signal of the input schema: the JSON keys bin-to-c.py reads from a
signal object (`name`, `addr`, `type`, `array`); `none` models an absent
key. -/
structure Signal where
  name : Option String := none
  addr : Option Int := none
  type : Option String := none
  array : Option Int := none

/-- One group of the input schema (`name`, `signals`). -/
structure Group where
  name : Option String := none
  signals : Option (List Signal) := none

/-- One memory block of the input schema (`name`, `handle`, `groups`). -/
structure Mblk where
  name : Option String := none
  handle : Option String := none
  groups : Option (List Group) := none

/-- The mutable compiler globals threaded through one block's signals:
`current_addr` (the address cursor), `current_type` (the type a signal
without an explicit `type` inherits) and `max_addr` (the block size
ceiling). -/
structure LayoutState where
  current_addr : Int
  current_type : String
  max_addr : Int

/-- The data of one descriptor line written to the C source stream by
`write_signal_to_c_source`: address, array length, type tag, the owning
block's handle and the pin reference (`OS_NULL` when the signal's name is
not in the pin list).  The signal's name is carried for the trailing
comment / cross-stream correspondence. -/
structure Descriptor where
  name : String
  addr : Int
  array_n : Int
  type : String
  handle : String
  pin : String
deriving DecidableEq

/-- `write_signal_to_c_source` of bin-to-c.py.  Effects modelled: the update
of `current_addr` / `current_type` / `max_addr` and the descriptor written
to the source stream.  The `..._ARRAY_SZ` define appended to `array_list`
for `array_n > 1` carries no layout state and is not modelled.  Returns
`none` when `calc_signal_memory_sz` raises KeyError on an unknown type. -/
def write_signal_to_c_source (pinlist : String → Option String) (handle : String)
    (st : LayoutState) (signal_name : String) (signal : Signal) :
    Option (LayoutState × Descriptor) :=
  let addr := signal.addr.getD st.current_addr
  let ty := signal.type.getD st.current_type
  let array_n0 := signal.array.getD 1
  let array_n := if array_n0 < 1 then 1 else array_n0
  match calc_signal_memory_sz ty array_n with
  | none => none
  | some sz =>
    let current_addr := addr + sz
    let max_addr := if current_addr > st.max_addr then current_addr else st.max_addr
    some ({ current_addr := current_addr, current_type := ty, max_addr := max_addr },
          { name := signal_name, addr := addr, array_n := array_n, type := ty,
            handle := handle, pin := (pinlist signal_name).getD "OS_NULL" })

/-- `process_signal` of bin-to-c.py: a signal without a `name` key is fatal;
otherwise one field declaration is written to the header stream and one
descriptor to the source stream.  The returned `String` is the declared
header field name. -/
def process_signal (pinlist : String → Option String)
    (handle block_name group_name : String) (st : LayoutState) (signal : Signal) :
    Except String (LayoutState × String × Descriptor) :=
  match signal.name with
  | none => .error ("'name' not found for signal in " ++ block_name ++ " " ++ group_name)
  | some signal_name =>
    match write_signal_to_c_source pinlist handle st signal_name signal with
    | none => .error ("KeyError: " ++ (signal.type.getD st.current_type))
    | some (st1, d) => .ok (st1, signal_name, d)

/-- The signal loop at the end of `process_group_block`: each signal appends
one name to the header stream and one descriptor to the source stream, and
the first error aborts. -/
def process_signals (pinlist : String → Option String)
    (handle block_name group_name : String) :
    LayoutState → List Signal → Except String (LayoutState × List String × List Descriptor)
  | st, [] => .ok (st, [], [])
  | st, s :: rest =>
    match process_signal pinlist handle block_name group_name st s with
    | .error e => .error e
    | .ok (st1, fname, d) =>
      match process_signals pinlist handle block_name group_name st1 rest with
      | .error e => .error e
      | .ok (st2, fnames, ds) => .ok (st2, fname :: fnames, d :: ds)

/-- The group default type set by `process_group_block` before its signal
loop: boolean for the groups named `inputs` or `outputs`, `ushort`
otherwise. -/
def group_default_type (group_name : String) : String :=
  if group_name = "inputs" ∨ group_name = "outputs" then "boolean" else "ushort"

/-- `process_group_block` of bin-to-c.py: a group without a `name` or
without a `signals` list is fatal; otherwise the global `current_type` is
set to the group default and the group's signals are processed in order
(the address cursor and size ceiling carry over from the previous group). -/
def process_group_block (pinlist : String → Option String)
    (handle block_name : String) (st : LayoutState) (group : Group) :
    Except String (LayoutState × List String × List Descriptor) :=
  match group.name with
  | none => .error ("'name' not found for group in " ++ block_name)
  | some group_name =>
    match group.signals with
    | none => .error ("'signals' not found for " ++ block_name ++ " " ++ group_name)
    | some signals =>
      process_signals pinlist handle block_name group_name
        { st with current_type := group_default_type group_name } signals

/-- The group loop of `process_mblk`: groups are processed in declaration
order, their header and source streams concatenate, and the first error
aborts. -/
def process_groups (pinlist : String → Option String) (handle block_name : String) :
    LayoutState → List Group → Except String (LayoutState × List String × List Descriptor)
  | st, [] => .ok (st, [], [])
  | st, g :: rest =>
    match process_group_block pinlist handle block_name st g with
    | .error e => .error e
    | .ok (st1, fnames, ds) =>
      match process_groups pinlist handle block_name st1 rest with
      | .error e => .error e
      | .ok (st2, fnames2, ds2) => .ok (st2, fnames ++ fnames2, ds ++ ds2)

/-- The signal-counting loop of `process_mblk` (lines 151-156): groups whose
`signals` key is absent contribute nothing to the count. -/
def count_signals : List Group → Nat
  | [] => 0
  | g :: rest => (match g.signals with | none => 0 | some s => s.length) + count_signals rest

/-- The data of one compiled memory block: the block name (default `MBLK`),
the runtime handle token (default `OS_NULL`), the signal count written into
the block header, the emitted `..._MBLK_SZ` define value (the final
`max_addr` ceiling), and the two parallel output streams. -/
structure MblkResult where
  block_name : String
  handle : String
  nro_signals : Nat
  mblk_sz : Int
  header_fields : List String
  descriptors : List Descriptor
deriving DecidableEq

/-- `process_mblk` of bin-to-c.py: block name and handle default to `MBLK` /
`OS_NULL`; a missing `groups` list is fatal.  The cursor restarts at 0 and
the ceiling at 32 for each block; the emitted block size is the final
ceiling `max_addr`, not the final cursor.  The initial `current_type` is
irrelevant: every group overwrites it before its first signal.  (The
`mblk_list` entry and the struct/initializer boilerplate text carry no
layout data and are not modelled.) -/
def process_mblk (pinlist : String → Option String) (mblk : Mblk) :
    Except String MblkResult :=
  let block_name := mblk.name.getD "MBLK"
  let handle := mblk.handle.getD "OS_NULL"
  match mblk.groups with
  | none => .error ("'groups' not found for " ++ block_name)
  | some groups =>
    match process_groups pinlist handle block_name
        { current_addr := 0, current_type := "undef", max_addr := 32 } groups with
    | .error e => .error e
    | .ok (st1, fnames, ds) =>
      .ok { block_name := block_name, handle := handle,
            nro_signals := count_signals groups, mblk_sz := st1.max_addr,
            header_fields := fnames, descriptors := ds }

/-- The top-level JSON document read by `process_source_file` (`name`,
`mblk`). -/
structure Document where
  name : Option String := none
  mblk : Option (List Mblk) := none

/-- The compiled device: its name and the compiled blocks in declaration
order. -/
structure DeviceResult where
  device_name : String
  blocks : List MblkResult
deriving DecidableEq

/-- The block loop of `process_source_file`: the first failing block aborts
the compilation, producing no further blocks. -/
def process_mblks (pinlist : String → Option String) :
    List Mblk → Except String (List MblkResult)
  | [] => .ok []
  | b :: rest =>
    match process_mblk pinlist b with
    | .error e => .error e
    | .ok r =>
      match process_mblks pinlist rest with
      | .error e => .error e
      | .ok rs => .ok (r :: rs)

/-- `process_source_file` of bin-to-c.py: the device name defaults to
`unnamed_device` when the `name` key is absent (no error, no warning); a
missing `mblk` list is fatal. -/
def process_source_file (pinlist : String → Option String) (data : Document) :
    Except String DeviceResult :=
  let device_name := data.name.getD "unnamed_device"
  match data.mblk with
  | none => .error ("'mblk' not found")
  | some mblks =>
    match process_mblks pinlist mblks with
    | .error e => .error e
    | .ok rs => .ok { device_name := device_name, blocks := rs }

/-- The signals of a block in processing order: the concatenation of the
groups' signal lists in declaration order. -/
def flat_signals : List Group → List Signal
  | [] => []
  | g :: rest => (g.signals.getD []) ++ flat_signals rest

/-- The memory footprint of an emitted descriptor: `calc_signal_memory_sz`
applied to its effective type and array length (every descriptor of a
successful compilation has a defined footprint). -/
def footprint (d : Descriptor) : Int :=
  (calc_signal_memory_sz d.type d.array_n).getD 0

/-- The end address of an emitted descriptor: its address plus its
footprint. -/
def end_addr (d : Descriptor) : Int := d.addr + footprint d

/-- The sum of the footprints of a list of descriptors. -/
def footprint_sum : List Descriptor → Int
  | [] => 0
  | d :: ds => footprint d + footprint_sum ds

/-- Address contiguity relative to a starting cursor: each signal that has
no explicit `addr` is placed at the running cursor, and after every signal
the cursor is that signal's address plus its memory size. -/
def addr_chain (base : Int) : List Signal → List Descriptor → Prop
  | [], [] => True
  | s :: sigs, d :: ds => (s.addr = none → d.addr = base) ∧ addr_chain (end_addr d) sigs ds
  | _, _ => False

/-- Type inheritance relative to a current type: each signal that has no
explicit `type` takes the current type, and after every signal the current
type is that signal's effective type. -/
def type_chain (current_type : String) : List Signal → List Descriptor → Prop
  | [], [] => True
  | s :: sigs, d :: ds => (s.type = none → d.type = current_type) ∧ type_chain d.type sigs ds
  | _, _ => False

/-- The cursor value after emitting a list of descriptors, starting from
`base`: the end address of the last descriptor, or `base` if none. -/
def last_end (base : Int) : List Descriptor → Int
  | [] => base
  | d :: ds => last_end (end_addr d) ds

/-- Test fixture: a pin list with no entries. -/
def ex_pin : String → Option String := fun _ => none

/-- Test fixture: a group named `g` with two untyped, unaddressed signals. -/
def ex_group : Group :=
  { name := some "g", signals := some [{ name := some "a" }, { name := some "b" }] }

/-- Test fixture: a block holding `ex_group`. -/
def ex_mblk : Mblk := { name := some "m", handle := some "h", groups := some [ex_group] }

/-- The compilation result of `ex_mblk`: group `g` defaults to `ushort`, so
signal `a` sits at address 0 with footprint 3 and signal `b` at address 3. -/
def ex_result : MblkResult :=
  { block_name := "m", handle := "h", nro_signals := 2, mblk_sz := 32,
    header_fields := ["a", "b"],
    descriptors :=
      [{ name := "a", addr := 0, array_n := 1, type := "ushort", handle := "h", pin := "OS_NULL" },
       { name := "b", addr := 3, array_n := 1, type := "ushort", handle := "h", pin := "OS_NULL" }] }

/-- Test fixture: a group named `inputs` whose first signal declares type
`int` and whose second signal declares no type. -/
def ex_group_typed : Group :=
  { name := some "inputs",
    signals := some [{ name := some "a", type := some "int" }, { name := some "b" }] }

/-- Test fixture: a device document holding `ex_mblk` only. -/
def ex_doc : Document := { name := some "dev", mblk := some [ex_mblk] }

/-- The compiled device of `ex_doc`. -/
def ex_device : DeviceResult := { device_name := "dev", blocks := [ex_result] }

end EosalSignals

namespace EosalMerge

mutual
/-- JSON values as read by merge_json.py via `json.load`.  Numbers are
modelled as integers (the documents in scope carry no floats); Python's
cross-type equalities (`True == 1`) and the insertion-order-blind equality
of dicts are not modelled. -/
inductive JValue : Type where
  | jnull : JValue
  | jbool : Bool → JValue
  | jnum : Int → JValue
  | jstr : String → JValue
  | jarr : JArr → JValue
  | jobj : JFields → JValue

inductive JArr : Type where
  | nil : JArr
  | cons : JValue → JArr → JArr

inductive JFields : Type where
  | nil : JFields
  | cons : String → JValue → JFields → JFields
end

/-- The raw value stored under a key, first occurrence (a Python dict holds
each key once; a well-formed `JFields` does too). -/
def objGetRaw : JFields → String → Option JValue
  | .nil, _ => none
  | .cons k v rest, key => if k = key then some v else objGetRaw rest key

/-- `d.get(key, None)` as observed by an `== None` test: a JSON null value
loads as Python `None`, so a stored null is indistinguishable from an absent
key. -/
def pyGet (fs : JFields) (key : String) : Option JValue :=
  match objGetRaw fs key with
  | some .jnull => none
  | r => r

/-- `d[key] = v`: replace the value of an existing key in place, else append
the new key at the end (Python dicts preserve insertion order). -/
def objSet : JFields → String → JValue → JFields
  | .nil, key, v => .cons key v .nil
  | .cons k w rest, key, v =>
    if k = key then .cons k v rest else .cons k w (objSet rest key v)

/-- List concatenation on the embedded JSON arrays. -/
def JArr.append : JArr → JArr → JArr
  | .nil, ys => ys
  | .cons x xs, ys => .cons x (JArr.append xs ys)

mutual
/-- Python `==` on two JSON values (structural). -/
def jeq : JValue → JValue → Bool
  | .jnull, .jnull => true
  | .jbool a, .jbool b => a == b
  | .jnum a, .jnum b => a == b
  | .jstr a, .jstr b => a == b
  | .jarr xs, .jarr ys => jeqArr xs ys
  | .jobj fs, .jobj gs => jeqFields fs gs
  | _, _ => false

def jeqArr : JArr → JArr → Bool
  | .nil, .nil => true
  | .cons x xs, .cons y ys => jeq x y && jeqArr xs ys
  | _, _ => false

def jeqFields : JFields → JFields → Bool
  | .nil, .nil => true
  | .cons k v fs, .cons l w gs => k == l && jeq v w && jeqFields fs gs
  | _, _ => false
end

/-- Result of the matching loop of `mergelist`: `crash` when a non-dict
entry is reached before a match (Python raises AttributeError on `m.get`),
`notFound` when the loop completes, or the split of the list around the
first entry whose `name` equals the searched name. -/
inductive FindRes : Type where
  | crash : FindRes
  | notFound : FindRes
  | found : JArr → JFields → JArr → FindRes

/-- The `for m in mlist` search of `mergelist`: the first entry `m` with
`m.get('name') == name` is returned with the entries before and after it. -/
def findNamed : JArr → JValue → FindRes
  | .nil, _ => .notFound
  | .cons (.jobj mfields) rest, name =>
    match pyGet mfields "name" with
    | some mn =>
      if jeq mn name then
        .found .nil mfields rest
      else
        match findNamed rest name with
        | .crash => .crash
        | .notFound => .notFound
        | .found pre mf post => .found (.cons (.jobj mfields) pre) mf post
    | none =>
      match findNamed rest name with
      | .crash => .crash
      | .notFound => .notFound
      | .found pre mf post => .found (.cons (.jobj mfields) pre) mf post
  | .cons _ _, _ => .crash

mutual
/-- `merge`, `mergelist` and the two `for` loops of merge_json.py, modelled
in a value-passing style (the Python mutates `merged` in place).  `none`
models an uncaught exception: a list value merged with a non-list
(iterating a non-empty string yields characters without `.get`, a non-empty
dict yields its string keys, and the scalars are not iterable — an empty
string or dict iterates zero times and leaves `merged` unchanged), a dict
value merged with a non-dict (`value.items()` fails), or a list item that
is not a dict.  A key absent from `merged` — or present with value null,
which `merged.get(key, None) == None` cannot distinguish — receives `value`
unless `value` is itself null; a scalar already present always wins. -/
def merge : JFields → JFields → Option JFields
  | merged, .nil => some merged
  | merged, .cons key value di =>
    match pyGet merged key with
    | none =>
      match value with
      | .jnull => merge merged di
      | _ => merge (objSet merged key value) di
    | some mitem =>
      match mitem with
      | .jarr mxs =>
        match value with
        | .jarr xs =>
          match mergeItems mxs xs with
          | none => none
          | some mxs1 => merge (objSet merged key (.jarr mxs1)) di
        | .jstr s => if s = "" then merge merged di else none
        | .jobj .nil => merge merged di
        | _ => none
      | .jobj mfs =>
        match value with
        | .jobj vfs =>
          match merge mfs vfs with
          | none => none
          | some mfs1 => merge (objSet merged key (.jobj mfs1)) di
        | _ => none
      | _ => merge merged di

def mergeItems : JArr → JArr → Option JArr
  | mlist, .nil => some mlist
  | mlist, .cons item rest =>
    match mergelist mlist item with
    | none => none
    | some mlist1 => mergeItems mlist1 rest

def mergelist : JArr → JValue → Option JArr
  | mlist, .jobj ifields =>
    match pyGet ifields "name" with
    | none => some mlist
    | some name =>
      match findNamed mlist name with
      | .crash => none
      | .notFound => some (mlist.append (.cons (.jobj ifields) .nil))
      | .found pre mfields post =>
        match merge mfields ifields with
        | none => none
        | some mf1 => some (pre.append (.cons (.jobj mf1) post))
  | _, _ => none
end

/-- The merge pipeline of `mymain` for two identical document fragments:
`merged = {}`, then `merge(merged, d)` once per fragment. -/
def selfMergeDoc (d : JFields) : Option JFields :=
  match merge .nil d with
  | none => none
  | some m1 => merge m1 d

/-- Whether a key occurs in an object. -/
def hasKey : JFields → String → Bool
  | .nil, _ => false
  | .cons k _ rest, key => k == key || hasKey rest key

/-- The `name` attribute of a list entry as `mergelist` reads it. -/
def nameOf : JValue → Option JValue
  | .jobj fs => pyGet fs "name"
  | _ => none

/-- Whether some entry of the list carries this `name`. -/
def hasName : JArr → JValue → Bool
  | .nil, _ => false
  | .cons m rest, n =>
    (match nameOf m with | some mn => jeq mn n | none => false) || hasName rest n

/-- No two named entries of the list share a `name`. -/
def distinctNames : JArr → Bool
  | .nil => true
  | .cons m rest =>
    (match nameOf m with | some mn => !hasName rest mn | none => true) && distinctNames rest

mutual
/-- Well-formedness for self-merge idempotence: object keys are distinct
(as in any Python dict), every list entry is an object, and no two named
entries of one list share a name. -/
def wfVal : JValue → Bool
  | .jnull => true
  | .jbool _ => true
  | .jnum _ => true
  | .jstr _ => true
  | .jarr xs => wfItems xs && distinctNames xs
  | .jobj fs => wfFields fs

def wfItems : JArr → Bool
  | .nil => true
  | .cons m rest =>
    (match m with | .jobj fs => wfFields fs | _ => false) && wfItems rest

def wfFields : JFields → Bool
  | .nil => true
  | .cons k v rest => !hasKey rest k && wfVal v && wfFields rest
end

/-- No top-level value of the document is null (`merge({}, d)` silently
drops a null-valued key, so a document with one cannot round-trip). -/
def noNullTop : JFields → Bool
  | .nil => true
  | .cons _ v rest => (match v with | .jnull => false | _ => true) && noNullTop rest

/-- `sub` is entry-wise contained in `f`: each of its entries is the first
occurrence of its key in `f`. -/
def SubF : JFields → JFields → Prop
  | .nil, _ => True
  | .cons k v sub, f => objGetRaw f k = some v ∧ SubF sub f

/-- `item` self-locates in `xs`: it is an object with well-formed fields,
and it is either unnamed (so `mergelist` skips it) or the first entry of
`xs` carrying its name is `item` itself. -/
def ItemSelf (xs : JArr) (item : JValue) : Prop :=
  ∃ ifields, item = .jobj ifields ∧ wfFields ifields = true ∧
    (pyGet ifields "name" = none ∨
      ∃ n pre post, pyGet ifields "name" = some n ∧
        findNamed xs n = .found pre ifields post ∧
        pre.append (.cons (.jobj ifields) post) = xs)

/-- Every entry of `sub` self-locates in `xs`. -/
def SubA : JArr → JArr → Prop
  | .nil, _ => True
  | .cons item sub, xs => ItemSelf xs item ∧ SubA sub xs

/-- Concatenation of the embedded JSON objects (used to state what the
first pass `merge({}, d)` builds). -/
def JFields.append : JFields → JFields → JFields
  | .nil, ys => ys
  | .cons k v xs, ys => .cons k v (JFields.append xs ys)

/-- Every key of the first object is absent from the second. -/
def keysFresh : JFields → JFields → Bool
  | .nil, _ => true
  | .cons k _ rest, acc => !hasKey acc k && keysFresh rest acc

/-- The object's keys are pairwise distinct (true of any loaded Python
dict). -/
def keysDistinct : JFields → Bool
  | .nil => true
  | .cons k _ rest => !hasKey rest k && keysDistinct rest

/-- A merged-in value the scalar rule applies to (booleans, numbers,
strings): when such a value is already present, `merge` keeps it. -/
def isScalarV : JValue → Bool
  | .jbool _ => true
  | .jnum _ => true
  | .jstr _ => true
  | _ => false

end EosalMerge

namespace EosalSignals

theorem write_signal_ok {p h st nm sig st1 d}
    (hw : write_signal_to_c_source p h st nm sig = some (st1, d)) :
    d.name = nm ∧
    d.addr = sig.addr.getD st.current_addr ∧
    d.type = sig.type.getD st.current_type ∧
    (calc_signal_memory_sz d.type d.array_n).isSome = true ∧
    st1.current_addr = end_addr d ∧
    st1.current_type = d.type ∧
    st.max_addr ≤ st1.max_addr ∧
    end_addr d ≤ st1.max_addr := by
  simp only [write_signal_to_c_source] at hw
  cases hcalc : calc_signal_memory_sz (sig.type.getD st.current_type)
      (if sig.array.getD 1 < 1 then 1 else sig.array.getD 1) with
  | none => rw [hcalc] at hw; exact absurd hw (by simp)
  | some sz =>
    rw [hcalc] at hw
    simp only [Option.some.injEq, Prod.mk.injEq] at hw
    obtain ⟨hst, hd⟩ := hw
    subst hst hd
    refine ⟨rfl, rfl, rfl, ?_, ?_, rfl, ?_, ?_⟩
    · simp [footprint, hcalc]
    · simp [end_addr, footprint, hcalc]
    · split <;> · dsimp only; omega
    · simp only [end_addr, footprint, hcalc, Option.getD_some]
      split <;> omega

theorem process_signal_ok {p h bn gn st sig st1 fname d}
    (hp : process_signal p h bn gn st sig = .ok (st1, fname, d)) :
    sig.name = some fname ∧
    d.name = fname ∧
    d.addr = sig.addr.getD st.current_addr ∧
    d.type = sig.type.getD st.current_type ∧
    st1.current_addr = end_addr d ∧
    st1.current_type = d.type ∧
    st.max_addr ≤ st1.max_addr ∧
    end_addr d ≤ st1.max_addr := by
  unfold process_signal at hp
  split at hp
  · exact absurd hp (by simp)
  next nm hn =>
    split at hp
    · exact absurd hp (by simp)
    next st1' d' hw =>
      simp only [Except.ok.injEq, Prod.mk.injEq] at hp
      obtain ⟨h1, h2, h3⟩ := hp
      subst h1 h2 h3
      obtain ⟨w1, w2, w3, _, w5, w6, w7, w8⟩ := write_signal_ok hw
      exact ⟨hn, w1, w2, w3, w5, w6, w7, w8⟩

/-- The combined invariant of the signal loop: the two output streams stay
in lockstep with the input signals, the size ceiling grows monotonically and
bounds every emitted end address, the cursor equals the last end address,
and address / type inheritance follow the chain discipline. -/
theorem process_signals_ok {p h bn gn} :
    ∀ {sigs : List Signal} {st st' fns ds},
    process_signals p h bn gn st sigs = .ok (st', fns, ds) →
    fns = ds.map Descriptor.name ∧
    sigs.map Signal.name = ds.map (fun d => some d.name) ∧
    st.max_addr ≤ st'.max_addr ∧
    (∀ d ∈ ds, end_addr d ≤ st'.max_addr) ∧
    st'.current_addr = last_end st.current_addr ds ∧
    addr_chain st.current_addr sigs ds ∧
    type_chain st.current_type sigs ds := by
  intro sigs
  induction sigs with
  | nil =>
    intro st st' fns ds hp
    simp only [process_signals, Except.ok.injEq, Prod.mk.injEq] at hp
    obtain ⟨h1, h2, h3⟩ := hp
    subst h1 h2 h3
    exact ⟨rfl, rfl, le_refl _, by simp, rfl, trivial, trivial⟩
  | cons s rest ih =>
    intro st st' fns ds hp
    simp only [process_signals] at hp
    split at hp
    · exact absurd hp (by simp)
    next st1 fname d h1 =>
      split at hp
      · exact absurd hp (by simp)
      next st2 fnames ds2 h2 =>
        simp only [Except.ok.injEq, Prod.mk.injEq] at hp
        obtain ⟨hA, hB, hC⟩ := hp
        subst hA hB hC
        obtain ⟨s1, s2, s3, s4, s5, s6, s7, s8⟩ := process_signal_ok h1
        obtain ⟨i1, i2, i3, i4, i5, i6, i7⟩ := ih h2
        refine ⟨by simp [i1, s2], by simp [s1, s2, i2], le_trans s7 i3, ?_, ?_, ?_, ?_⟩
        · intro d' hd'
          rcases List.mem_cons.mp hd' with hd' | hd'
          · exact le_trans (hd' ▸ s8) i3
          · exact i4 d' hd'
        · simpa [last_end, ← s5] using i5
        · exact ⟨fun hna => by rw [s3, hna]; rfl, by rw [← s5]; exact i6⟩
        · exact ⟨fun hnt => by rw [s4, hnt]; rfl, by rw [← s6]; exact i7⟩

theorem last_end_append (base : Int) (d1 d2 : List Descriptor) :
    last_end base (d1 ++ d2) = last_end (last_end base d1) d2 := by
  induction d1 generalizing base with
  | nil => rfl
  | cons d rest ih => simpa [last_end] using ih (end_addr d)

theorem addr_chain_append {s1 d1 s2 d2 base} (h1 : addr_chain base s1 d1)
    (h2 : addr_chain (last_end base d1) s2 d2) :
    addr_chain base (s1 ++ s2) (d1 ++ d2) := by
  induction s1 generalizing base d1 with
  | nil =>
    cases d1 with
    | nil => exact h2
    | cons d rest => exact absurd h1 (by simp [addr_chain])
  | cons s rest ih =>
    cases d1 with
    | nil => exact absurd h1 (by simp [addr_chain])
    | cons d drest =>
      obtain ⟨ha, hc⟩ := h1
      exact ⟨ha, ih hc (by simpa [last_end] using h2)⟩

theorem process_group_block_ok {p h bn st g st' fns ds}
    (hp : process_group_block p h bn st g = .ok (st', fns, ds)) :
    ∃ gn sigs, g.name = some gn ∧ g.signals = some sigs ∧
    fns = ds.map Descriptor.name ∧
    sigs.map Signal.name = ds.map (fun d => some d.name) ∧
    st.max_addr ≤ st'.max_addr ∧
    (∀ d ∈ ds, end_addr d ≤ st'.max_addr) ∧
    st'.current_addr = last_end st.current_addr ds ∧
    addr_chain st.current_addr sigs ds ∧
    type_chain (group_default_type gn) sigs ds := by
  unfold process_group_block at hp
  split at hp
  · exact absurd hp (by simp)
  next gn hn =>
    split at hp
    · exact absurd hp (by simp)
    next sigs hs =>
      obtain ⟨i1, i2, i3, i4, i5, i6, i7⟩ := process_signals_ok hp
      exact ⟨gn, sigs, hn, hs, i1, i2, i3, i4, i5, i6, i7⟩

theorem process_groups_ok {p h bn} :
    ∀ {gs : List Group} {st st' fns ds},
    process_groups p h bn st gs = .ok (st', fns, ds) →
    fns = ds.map Descriptor.name ∧
    (flat_signals gs).map Signal.name = ds.map (fun d => some d.name) ∧
    st.max_addr ≤ st'.max_addr ∧
    (∀ d ∈ ds, end_addr d ≤ st'.max_addr) ∧
    st'.current_addr = last_end st.current_addr ds ∧
    addr_chain st.current_addr (flat_signals gs) ds := by
  intro gs
  induction gs with
  | nil =>
    intro st st' fns ds hp
    simp only [process_groups, Except.ok.injEq, Prod.mk.injEq] at hp
    obtain ⟨h1, h2, h3⟩ := hp
    subst h1 h2 h3
    exact ⟨rfl, rfl, le_refl _, by simp, rfl, trivial⟩
  | cons g rest ih =>
    intro st st' fns ds hp
    simp only [process_groups] at hp
    split at hp
    · exact absurd hp (by simp)
    next st1 fns1 ds1 h1 =>
      split at hp
      · exact absurd hp (by simp)
      next st2 fns2 ds2 h2 =>
        simp only [Except.ok.injEq, Prod.mk.injEq] at hp
        obtain ⟨hA, hB, hC⟩ := hp
        subst hA hB hC
        obtain ⟨gn, sigs, hn, hs, g1, g2, g3, g4, g5, g6, _⟩ := process_group_block_ok h1
        obtain ⟨i1, i2, i3, i4, i5, i6⟩ := ih h2
        refine ⟨by simp [g1, i1], ?_, le_trans g3 i3, ?_, ?_, ?_⟩
        · simp [flat_signals, hs, g2, i2]
        · intro d' hd'
          rcases List.mem_append.mp hd' with hd' | hd'
          · exact le_trans (g4 d' hd') i3
          · exact i4 d' hd'
        · rw [i5, g5, last_end_append]
        · simp only [flat_signals, hs, Option.getD_some]
          exact addr_chain_append g6 (g5 ▸ i6)

theorem process_mblk_ok {p mblk r} (hp : process_mblk p mblk = .ok r) :
    ∃ gs, mblk.groups = some gs ∧
    r.block_name = mblk.name.getD "MBLK" ∧
    r.handle = mblk.handle.getD "OS_NULL" ∧
    r.header_fields = r.descriptors.map Descriptor.name ∧
    (flat_signals gs).map Signal.name = r.descriptors.map (fun d => some d.name) ∧
    32 ≤ r.mblk_sz ∧
    (∀ d ∈ r.descriptors, end_addr d ≤ r.mblk_sz) ∧
    addr_chain 0 (flat_signals gs) r.descriptors := by
  unfold process_mblk at hp
  split at hp
  · exact absurd hp (by simp)
  next gs hg =>
    dsimp only at hp
    split at hp
    · exact absurd hp (by simp)
    next st1 fns ds h1 =>
      simp only [Except.ok.injEq] at hp
      subst hp
      obtain ⟨i1, i2, i3, i4, i5, i6⟩ := process_groups_ok h1
      exact ⟨gs, hg, rfl, rfl, i1, i2, i3, i4, i6⟩

theorem addr_chain_sum :
    ∀ {sigs : List Signal} {ds : List Descriptor} {base : Int},
    addr_chain base sigs ds → (∀ s ∈ sigs, s.addr = none) →
    ∀ i (hi : i < ds.length), (ds.get ⟨i, hi⟩).addr = base + footprint_sum (ds.take i) := by
  intro sigs
  induction sigs with
  | nil =>
    intro ds base hc _ i hi
    cases ds with
    | nil => exact absurd hi (by simp)
    | cons d rest => exact absurd hc (by simp [addr_chain])
  | cons s rest ih =>
    intro ds base hc hnone i hi
    cases ds with
    | nil => exact absurd hc (by simp [addr_chain])
    | cons d drest =>
      obtain ⟨ha, hchain⟩ := hc
      have hd : d.addr = base := ha (hnone s (by simp))
      cases i with
      | zero => simpa [footprint_sum] using hd
      | succ n =>
        have := ih hchain (fun x hx => hnone x (by simp [hx])) n (by simpa using hi)
        simp only [List.get_cons_succ, List.take_succ_cons, footprint_sum] at this ⊢
        rw [this, end_addr, hd]
        ring

theorem type_chain_prefix :
    ∀ {sigs : List Signal} {ds : List Descriptor} {t : String},
    type_chain t sigs ds →
    ∀ i (hi : i < ds.length) (hs : i < sigs.length),
    (∀ j (hj : j < sigs.length), j ≤ i → (sigs.get ⟨j, hj⟩).type = none) →
    (ds.get ⟨i, hi⟩).type = t := by
  intro sigs
  induction sigs with
  | nil =>
    intro ds t hc i hi hs
    exact absurd hs (by simp)
  | cons s rest ih =>
    intro ds t hc i hi hs hnone
    cases ds with
    | nil => exact absurd hc (by simp [type_chain])
    | cons d drest =>
      obtain ⟨ht, hchain⟩ := hc
      have hd : d.type = t := ht (hnone 0 (by simp) (by simp))
      cases i with
      | zero => simpa using hd
      | succ n =>
        have := ih (hd ▸ hchain) n (by simpa using hi) (by simpa using hs)
          (fun j hj hji => hnone (j + 1) (by simpa using hj) (by omega))
        simpa using this

theorem process_mblks_ok {p} :
    ∀ {mblks : List Mblk} {rs : List MblkResult},
    process_mblks p mblks = .ok rs →
    ∀ b ∈ rs, b.header_fields = b.descriptors.map Descriptor.name := by
  intro mblks
  induction mblks with
  | nil =>
    intro rs hp b hb
    simp only [process_mblks, Except.ok.injEq] at hp
    subst hp
    exact absurd hb (by simp)
  | cons m rest ih =>
    intro rs hp b hb
    simp only [process_mblks] at hp
    split at hp
    · exact absurd hp (by simp)
    next r1 h1 =>
      split at hp
      · exact absurd hp (by simp)
      next rs2 h2 =>
        simp only [Except.ok.injEq] at hp
        subst hp
        rcases List.mem_cons.mp hb with hb | hb
        · obtain ⟨_, _, _, _, i4, _⟩ := process_mblk_ok h1
          exact hb ▸ i4
        · exact ih h2 b hb

/-- C1: the claimed boolean footprint `ceil(n/8) + 1` does not hold in the
code: the packed-size return is dead code (mis-indented inside the
`array_n == 1` suite), so a boolean signal of array length `n != 1` gets the
generic footprint `n * widthOf(boolean) + 1 = n + 1`.  At the failing input
(boolean, array length 9) the code yields 10 bytes where the claim says 3;
the non-boolean part of the claim (`int` of array length 4 gives 13) and
the scalar boolean case do hold. -/
theorem calc_signal_memory_sz_boolean_dead_code :
    calc_signal_memory_sz "boolean" 9 = some 10 ∧
    calc_signal_memory_sz "boolean" 1 = some 1 ∧
    calc_signal_memory_sz "int" 4 = some 13 ∧
    ∀ n : Int, calc_signal_memory_sz "boolean" n = some (if n = 1 then 1 else n + 1) := by
  refine ⟨rfl, rfl, rfl, fun n => ?_⟩
  by_cases h : n = 1
  · subst h; rfl
  · simp [calc_signal_memory_sz, osal_typeinfo, h]

/-- C2: in a successfully compiled block the addresses are contiguous: every
signal with no explicit `addr` is placed at the running cursor, which starts
at 0 and advances past each signal by its memory size (`addr_chain`); when
no signal of the block has an explicit `addr`, the i-th emitted address is
the sum of the footprints of the preceding signals. -/
theorem addresses_are_contiguous {p : String → Option String} {mblk : Mblk}
    {gs : List Group} {r : MblkResult}
    (hg : mblk.groups = some gs) (hok : process_mblk p mblk = .ok r) :
    addr_chain 0 (flat_signals gs) r.descriptors ∧
    ((∀ s ∈ flat_signals gs, s.addr = none) →
      ∀ i (hi : i < r.descriptors.length),
        (r.descriptors.get ⟨i, hi⟩).addr = footprint_sum (r.descriptors.take i)) := by
  obtain ⟨gs', hg', _, _, _, _, _, _, hchain⟩ := process_mblk_ok hok
  rw [hg] at hg'
  injection hg' with he
  subst he
  refine ⟨hchain, fun hnone i hi => ?_⟩
  simpa using addr_chain_sum hchain hnone i hi

theorem addresses_are_contiguous_witness :
    addr_chain 0 (flat_signals [ex_group]) ex_result.descriptors ∧
    ((∀ s ∈ flat_signals [ex_group], s.addr = none) →
      ∀ i (hi : i < ex_result.descriptors.length),
        (ex_result.descriptors.get ⟨i, hi⟩).addr =
          footprint_sum (ex_result.descriptors.take i)) :=
  @addresses_are_contiguous ex_pin ex_mblk [ex_group] ex_result rfl rfl

/-- C3: the emitted block size is the final size ceiling: it is at least 32,
at least the end address (address plus footprint) of every signal of the
block, and the ceiling never decreases at any signal step. -/
theorem block_size_is_final_ceiling {p : String → Option String} {mblk : Mblk}
    {r : MblkResult} (hok : process_mblk p mblk = .ok r) :
    32 ≤ r.mblk_sz ∧
    (∀ d ∈ r.descriptors, end_addr d ≤ r.mblk_sz) ∧
    (∀ (p2 : String → Option String) (h2 : String) (st : LayoutState) nm sig st1 d,
      write_signal_to_c_source p2 h2 st nm sig = some (st1, d) →
      st.max_addr ≤ st1.max_addr) := by
  obtain ⟨_, _, _, _, _, _, h32, hend, _⟩ := process_mblk_ok hok
  refine ⟨h32, hend, fun p2 h2 st nm sig st1 d hw => ?_⟩
  obtain ⟨_, _, _, _, _, _, w7, _⟩ := write_signal_ok hw
  exact w7

theorem block_size_is_final_ceiling_witness :
    32 ≤ ex_result.mblk_sz ∧
    (∀ d ∈ ex_result.descriptors, end_addr d ≤ ex_result.mblk_sz) ∧
    (∀ (p2 : String → Option String) (h2 : String) (st : LayoutState) nm sig st1 d,
      write_signal_to_c_source p2 h2 st nm sig = some (st1, d) →
      st.max_addr ≤ st1.max_addr) :=
  @block_size_is_final_ceiling ex_pin ex_mblk ex_result rfl

/-- C4 counterexample: in the group `inputs` (default type boolean), a
signal with no explicit `type` that follows a signal typed `int` is emitted
with type `int`, not the group default `boolean`: the code updates
`current_type` with every override, so the default is not re-applied. -/
theorem group_default_not_reapplied :
    (process_group_block ex_pin "OS_NULL" "MBLK"
        { current_addr := 0, current_type := "undef", max_addr := 32 } ex_group_typed).map
      (fun x => x.2.2.map Descriptor.type) = .ok ["int", "int"] ∧
    ("int" : String) ≠ "boolean" :=
  ⟨rfl, by decide⟩

/-- C4 amended: a signal with no explicit `type` inherits the running
`current_type`: the group default at the start of the group, thereafter the
effective type of the nearest preceding signal of the group
(`type_chain`).  In particular, as long as no earlier signal of the group
declared a type, the inherited type is the group's default. -/
theorem type_inherited_from_running_type {p : String → Option String}
    {h bn : String} {st : LayoutState} {g : Group} {gn : String}
    {sigs : List Signal} {st' : LayoutState} {fns : List String} {ds : List Descriptor}
    (hn : g.name = some gn) (hs : g.signals = some sigs)
    (hok : process_group_block p h bn st g = .ok (st', fns, ds)) :
    type_chain (group_default_type gn) sigs ds ∧
    (∀ i (hi : i < ds.length) (hsi : i < sigs.length),
      (∀ j (hj : j < sigs.length), j ≤ i → (sigs.get ⟨j, hj⟩).type = none) →
      (ds.get ⟨i, hi⟩).type = group_default_type gn) := by
  obtain ⟨gn', sigs', hn', hs', _, _, _, _, _, _, htype⟩ := process_group_block_ok hok
  rw [hn] at hn'
  rw [hs] at hs'
  injection hn' with e1
  injection hs' with e2
  subst e1
  subst e2
  exact ⟨htype, fun i hi _ hnone => type_chain_prefix htype i hi (by omega) hnone⟩

theorem type_inherited_from_running_type_witness :
    type_chain (group_default_type "g")
      [{ name := some "a" }, { name := some "b" }] ex_result.descriptors ∧
    (∀ i (hi : i < ex_result.descriptors.length)
      (hsi : i < ([{ name := some "a" }, { name := some "b" }] : List Signal).length),
      (∀ j (hj : j < ([{ name := some "a" }, { name := some "b" }] : List Signal).length),
        j ≤ i → (([{ name := some "a" }, { name := some "b" }] : List Signal).get ⟨j, hj⟩).type = none) →
      (ex_result.descriptors.get ⟨i, hi⟩).type = group_default_type "g") :=
  @type_inherited_from_running_type ex_pin "h" "m"
    { current_addr := 0, current_type := "undef", max_addr := 32 } ex_group "g"
    [{ name := some "a" }, { name := some "b" }]
    { current_addr := 6, current_type := "ushort", max_addr := 32 }
    ["a", "b"] ex_result.descriptors rfl rfl rfl

/-- C5: the runtime descriptor stream and the structural declaration stream
list the same signals in the same order: for every compiled device, each
block's header field list is exactly the names of its descriptor list; and
for every compiled block, both streams follow the block's flattened signal
list one-to-one (an array signal occupies one descriptor and one field). -/
theorem runtime_and_structural_streams_agree {p : String → Option String}
    {data : Document} {r : DeviceResult}
    (hok : process_source_file p data = .ok r) :
    (∀ b ∈ r.blocks, b.header_fields = b.descriptors.map Descriptor.name) ∧
    (∀ (mblk : Mblk) (gs : List Group) (br : MblkResult),
      mblk.groups = some gs → process_mblk p mblk = .ok br →
      br.header_fields = br.descriptors.map Descriptor.name ∧
      (flat_signals gs).map Signal.name = br.descriptors.map (fun d => some d.name) ∧
      br.descriptors.length = (flat_signals gs).length) := by
  constructor
  · unfold process_source_file at hok
    dsimp only at hok
    split at hok
    · exact absurd hok (by simp)
    next mblks hm =>
      split at hok
      · exact absurd hok (by simp)
      next rs hrs =>
        simp only [Except.ok.injEq] at hok
        subst hok
        exact process_mblks_ok hrs
  · intro mblk gs br hg hb
    obtain ⟨gs', hg', _, _, i4, i5, _, _, _⟩ := process_mblk_ok hb
    rw [hg] at hg'
    injection hg' with he
    subst he
    refine ⟨i4, i5, ?_⟩
    have hl := congrArg List.length i5
    simpa using hl.symm

theorem runtime_and_structural_streams_agree_witness :
    (∀ b ∈ ex_device.blocks, b.header_fields = b.descriptors.map Descriptor.name) ∧
    (∀ (mblk : Mblk) (gs : List Group) (br : MblkResult),
      mblk.groups = some gs → process_mblk ex_pin mblk = .ok br →
      br.header_fields = br.descriptors.map Descriptor.name ∧
      (flat_signals gs).map Signal.name = br.descriptors.map (fun d => some d.name) ∧
      br.descriptors.length = (flat_signals gs).length) :=
  @runtime_and_structural_streams_agree ex_pin ex_doc ex_device rfl

/-- C6: an effective type name that is not in the type registry makes the
width computation fail (`calc_signal_memory_sz` returns no value instead of
substituting a default) and makes the signal's processing abort with a
KeyError diagnostic. -/
theorem unknown_type_is_fatal (ty : String) (hty : osal_typeinfo ty = none) :
    (∀ n : Int, calc_signal_memory_sz ty n = none) ∧
    (∀ (p : String → Option String) (h bn gn : String) (st : LayoutState)
      (sig : Signal) (nm : String), sig.name = some nm → sig.type = some ty →
      process_signal p h bn gn st sig = .error ("KeyError: " ++ ty)) := by
  have hb : ty ≠ "boolean" := by
    intro he
    rw [he] at hty
    exact absurd hty (by simp [osal_typeinfo])
  have hcalc : ∀ n : Int, calc_signal_memory_sz ty n = none := by
    intro n
    unfold calc_signal_memory_sz
    rw [if_neg (fun hand => hb hand.1), hty]
  refine ⟨hcalc, fun p h bn gn st sig nm hnm hsty => ?_⟩
  have heff : sig.type.getD st.current_type = ty := by rw [hsty]; rfl
  have hw : write_signal_to_c_source p h st nm sig = none := by
    simp only [write_signal_to_c_source, heff, hcalc]
  simp only [process_signal, hnm, hw, heff]

theorem unknown_type_is_fatal_witness :
    calc_signal_memory_sz "foo" 1 = none ∧
    process_signal ex_pin "h" "m" "g"
      { current_addr := 0, current_type := "undef", max_addr := 32 }
      { name := some "s", type := some "foo" } = .error ("KeyError: " ++ "foo") :=
  ⟨(unknown_type_is_fatal "foo" rfl).1 1,
   (unknown_type_is_fatal "foo" rfl).2 ex_pin "h" "m" "g"
     { current_addr := 0, current_type := "undef", max_addr := 32 }
     { name := some "s", type := some "foo" } "s" rfl rfl⟩

/-- C7 counterexample: a document with no device `name` key compiles
successfully under the default name `unnamed_device` — a missing device name
is not fatal and produces no diagnostic, contrary to the claim. -/
theorem missing_device_name_not_fatal :
    process_source_file ex_pin
      { name := none, mblk := some [{ name := some "b", handle := some "h", groups := some [] }] } =
    .ok { device_name := "unnamed_device",
          blocks := [{ block_name := "b", handle := "h", nro_signals := 0, mblk_sz := 32,
                       header_fields := [], descriptors := [] }] } := rfl

/-- C7 amended: a missing device `name` silently defaults to
`unnamed_device`; the other required keys are fatal with a diagnostic naming
the field and its context, and an error aborts the remaining blocks: a
missing top-level `mblk` list, a missing block `groups` list, a missing
group `name`, a missing group `signals` list and a missing signal `name`
each abort compilation. -/
theorem missing_required_fields_fatal :
    (∀ (p : String → Option String) m,
      process_source_file p { name := none, mblk := m } =
      process_source_file p { name := some "unnamed_device", mblk := m }) ∧
    (∀ (p : String → Option String) nm,
      process_source_file p { name := nm, mblk := none } = .error "'mblk' not found") ∧
    (∀ (p : String → Option String) (b : Mblk), b.groups = none →
      process_mblk p b = .error ("'groups' not found for " ++ b.name.getD "MBLK")) ∧
    (∀ (p : String → Option String) (h bn : String) (st : LayoutState) (g : Group),
      g.name = none →
      process_group_block p h bn st g = .error ("'name' not found for group in " ++ bn)) ∧
    (∀ (p : String → Option String) (h bn : String) (st : LayoutState) (g : Group) gn,
      g.name = some gn → g.signals = none →
      process_group_block p h bn st g =
        .error ("'signals' not found for " ++ bn ++ " " ++ gn)) ∧
    (∀ (p : String → Option String) (h bn gn : String) (st : LayoutState) (s : Signal),
      s.name = none →
      process_signal p h bn gn st s =
        .error ("'name' not found for signal in " ++ bn ++ " " ++ gn)) ∧
    (∀ (p : String → Option String) (b : Mblk) rest e,
      process_mblk p b = .error e → process_mblks p (b :: rest) = .error e) := by
  refine ⟨fun p m => rfl, fun p nm => rfl, ?_, ?_, ?_, ?_, ?_⟩
  · intro p b hb
    simp only [process_mblk, hb]
  · intro p h bn st g hg
    simp only [process_group_block, hg]
  · intro p h bn st g gn hg hs
    simp only [process_group_block, hg, hs]
  · intro p h bn gn st s hs
    simp only [process_signal, hs]
  · intro p b rest e hb
    simp only [process_mblks, hb]

/-- C10: a block without a `name` key compiles under the default name `MBLK`
and a block without a `handle` key uses `OS_NULL`, with no change to the
outcome of compilation relative to spelling those defaults out. -/
theorem block_name_and_handle_defaults :
    (∀ (p : String → Option String) (g : Option (List Group)),
      process_mblk p { name := none, handle := none, groups := g } =
      process_mblk p { name := some "MBLK", handle := some "OS_NULL", groups := g }) ∧
    (∀ (p : String → Option String) (g : Option (List Group)) (r : MblkResult),
      process_mblk p { name := none, handle := none, groups := g } = .ok r →
      r.block_name = "MBLK" ∧ r.handle = "OS_NULL") := by
  refine ⟨fun p g => rfl, fun p g r hok => ?_⟩
  obtain ⟨gs, _, h1, h2, _⟩ := process_mblk_ok hok
  exact ⟨by simpa using h1, by simpa using h2⟩

theorem block_name_and_handle_defaults_witness :
    ({ block_name := "MBLK", handle := "OS_NULL", nro_signals := 0, mblk_sz := 32,
       header_fields := [], descriptors := [] } : MblkResult).block_name = "MBLK" ∧
    ({ block_name := "MBLK", handle := "OS_NULL", nro_signals := 0, mblk_sz := 32,
       header_fields := [], descriptors := [] } : MblkResult).handle = "OS_NULL" :=
  block_name_and_handle_defaults.2 ex_pin (some [])
    { block_name := "MBLK", handle := "OS_NULL", nro_signals := 0, mblk_sz := 32,
      header_fields := [], descriptors := [] } rfl

end EosalSignals

namespace EosalMerge

mutual
theorem jeq_eq : ∀ a b, jeq a b = true ↔ a = b
  | .jnull, b => by cases b <;> simp [jeq]
  | .jbool x, b => by cases b <;> simp [jeq]
  | .jnum x, b => by cases b <;> simp [jeq]
  | .jstr x, b => by cases b <;> simp [jeq]
  | .jarr xs, b => by cases b <;> simp [jeq, jeqArr_eq xs]
  | .jobj fs, b => by cases b <;> simp [jeq, jeqFields_eq fs]

theorem jeqArr_eq : ∀ xs ys, jeqArr xs ys = true ↔ xs = ys
  | .nil, ys => by cases ys <;> simp [jeqArr]
  | .cons x xs, ys => by cases ys <;> simp [jeqArr, jeq_eq x, jeqArr_eq xs]

theorem jeqFields_eq : ∀ fs gs, jeqFields fs gs = true ↔ fs = gs
  | .nil, gs => by cases gs <;> simp [jeqFields]
  | .cons k v fs, gs => by
    cases gs <;> simp [jeqFields, jeq_eq v, jeqFields_eq fs, and_assoc]
end

theorem jeq_refl (a : JValue) : jeq a a = true := (jeq_eq a a).mpr rfl

theorem hasKey_false_objGetRaw : ∀ (f : JFields) (k), hasKey f k = false →
    objGetRaw f k = none
  | .nil, _, _ => rfl
  | .cons k' v rest, k, hk => by
    simp only [hasKey, Bool.or_eq_false_iff, beq_eq_false_iff_ne] at hk
    simp [objGetRaw, hk.1, hasKey_false_objGetRaw rest k hk.2]

theorem pyGet_none_of_raw_none {f : JFields} {k} (h : objGetRaw f k = none) :
    pyGet f k = none := by
  simp [pyGet, h]

theorem pyGet_some_of_raw {f : JFields} {k v} (h : objGetRaw f k = some v)
    (hv : v ≠ .jnull) : pyGet f k = some v := by
  unfold pyGet
  rw [h]
  cases v <;> simp_all

theorem pyGet_none_of_null {f : JFields} {k} (h : objGetRaw f k = some .jnull) :
    pyGet f k = none := by
  simp [pyGet, h]

theorem objSet_self : ∀ (f : JFields) (k v), objGetRaw f k = some v →
    objSet f k v = f
  | .nil, k, v, h => absurd h (by simp [objGetRaw])
  | .cons k' w rest, k, v, h => by
    by_cases he : k' = k
    · subst he
      simp only [objGetRaw, if_true, eq_self_iff_true, if_pos, Option.some.injEq] at h
      simp [objSet, h]
    · simp only [objGetRaw, if_neg he] at h
      simp [objSet, he, objSet_self rest k v h]

theorem objSet_fresh : ∀ (f : JFields) (k v), hasKey f k = false →
    objSet f k v = f.append (.cons k v .nil)
  | .nil, k, v, _ => rfl
  | .cons k' w rest, k, v, h => by
    simp only [hasKey, Bool.or_eq_false_iff, beq_eq_false_iff_ne] at h
    simp [objSet, h.1, objSet_fresh rest k v h.2, JFields.append]

theorem hasKey_appendF : ∀ (f g : JFields) (k : String),
    hasKey (f.append g) k = (hasKey f k || hasKey g k)
  | .nil, g, k => by simp [JFields.append, hasKey]
  | .cons k' v rest, g, k => by
    simp [JFields.append, hasKey, hasKey_appendF rest g k, Bool.or_assoc]

theorem appendF_assoc : ∀ (f g h : JFields),
    (f.append g).append h = f.append (g.append h)
  | .nil, g, h => rfl
  | .cons k v rest, g, h => by simp [JFields.append, appendF_assoc rest g h]

theorem appendA_nil : ∀ xs : JArr, xs.append .nil = xs
  | .nil => rfl
  | .cons x xs => by simp [JArr.append, appendA_nil xs]

theorem wf_of_objGetRaw : ∀ (f : JFields) (k v), wfFields f = true →
    objGetRaw f k = some v → wfVal v = true
  | .nil, k, v, _, h => absurd h (by simp [objGetRaw])
  | .cons k' w rest, k, v, hwf, h => by
    simp only [wfFields, Bool.and_eq_true] at hwf
    obtain ⟨⟨h1, h2⟩, h3⟩ := hwf
    by_cases he : k' = k
    · subst he
      simp only [objGetRaw, if_true, eq_self_iff_true, if_pos, Option.some.injEq] at h
      exact h ▸ h2
    · simp only [objGetRaw, if_neg he] at h
      exact wf_of_objGetRaw rest k v h3 h

theorem keysDistinct_of_wf : ∀ (f : JFields), wfFields f = true →
    keysDistinct f = true
  | .nil, _ => rfl
  | .cons k v rest, hwf => by
    simp only [wfFields, Bool.and_eq_true] at hwf
    obtain ⟨⟨h1, _⟩, h3⟩ := hwf
    simp [keysDistinct, h1, keysDistinct_of_wf rest h3]

theorem SubF_extend : ∀ (sub f : JFields) (k v), SubF sub f →
    hasKey sub k = false → SubF sub (.cons k v f)
  | .nil, f, k, v, _, _ => trivial
  | .cons k' w rest, f, k, v, hsub, hk => by
    simp only [hasKey, Bool.or_eq_false_iff, beq_eq_false_iff_ne] at hk
    obtain ⟨h1, h2⟩ := hsub
    exact ⟨by simp [objGetRaw, Ne.symm hk.1, h1], SubF_extend rest f k v h2 hk.2⟩

theorem SubF_self : ∀ (f : JFields), wfFields f = true → SubF f f
  | .nil, _ => trivial
  | .cons k v rest, hwf => by
    simp only [wfFields, Bool.and_eq_true] at hwf
    obtain ⟨⟨h1, _⟩, h3⟩ := hwf
    exact ⟨by simp [objGetRaw],
      SubF_extend rest rest k v (SubF_self rest h3) (by simpa using h1)⟩

theorem appendA_assoc : ∀ (a b c : JArr),
    (a.append b).append c = a.append (b.append c)
  | .nil, b, c => rfl
  | .cons x xs, b, c => by simp [JArr.append, appendA_assoc xs b c]

theorem wfItems_parts : ∀ (a b : JArr),
    wfItems (a.append b) = (wfItems a && wfItems b)
  | .nil, b => by simp [JArr.append, wfItems]
  | .cons m xs, b => by
    have ih := wfItems_parts xs b
    cases m <;> simp [JArr.append, wfItems, ih, Bool.and_assoc]

theorem hasName_of_entry : ∀ (ys : JArr) (m : JValue) (post : JArr) (mn n : JValue),
    nameOf m = some mn → jeq mn n = true →
    hasName (ys.append (.cons m post)) n = true
  | .nil, m, post, mn, n, hm, hj => by simp [JArr.append, hasName, hm, hj]
  | .cons y ys, m, post, mn, n, hm, hj => by
    simp [JArr.append, hasName, hasName_of_entry ys m post mn n hm hj]

theorem distinct_no_earlier : ∀ (pre : JArr) (m : JValue) (post : JArr) (n : JValue),
    distinctNames (pre.append (.cons m post)) = true → nameOf m = some n →
    hasName pre n = false
  | .nil, m, post, n, _, _ => rfl
  | .cons p rest, m, post, n, hd, hm => by
    simp only [JArr.append, distinctNames, Bool.and_eq_true] at hd
    obtain ⟨hp, hrest⟩ := hd
    have ih := distinct_no_earlier rest m post n hrest hm
    simp only [hasName, ih, Bool.or_false]
    cases hnp : nameOf p with
    | none => rfl
    | some pn =>
      simp only [hnp] at hp
      have htrue : jeq pn n = false ∨ jeq pn n = true := by
        cases jeq pn n
        · exact Or.inl rfl
        · exact Or.inr rfl
      rcases htrue with htrue | htrue
      · exact htrue
      · exfalso
        have hpn : pn = n := (jeq_eq pn n).mp htrue
        rw [hpn] at hp
        rw [hasName_of_entry rest m post n n hm (jeq_refl n)] at hp
        exact absurd hp (by simp)

theorem findNamed_cons_match {mf : JFields} {post : JArr} {mn n : JValue}
    (hm : pyGet mf "name" = some mn) (hj : jeq mn n = true) :
    findNamed (.cons (.jobj mf) post) n = .found .nil mf post := by
  simp [findNamed, hm, hj]

theorem findNamed_prepend_no_match : ∀ (pre xs : JArr) (n : JValue),
    wfItems pre = true → hasName pre n = false →
    findNamed (pre.append xs) n =
      (match findNamed xs n with
       | .found p mf q => .found (pre.append p) mf q
       | r => r)
  | .nil, xs, n, _, _ => by
    cases hf : findNamed xs n <;> simp [JArr.append, hf]
  | .cons m rest, xs, n, hwf, hn => by
    cases m with
    | jobj mf =>
      simp only [wfItems, Bool.and_eq_true] at hwf
      obtain ⟨hm, hrest⟩ := hwf
      have ih := fun h2 => findNamed_prepend_no_match rest xs n hrest h2
      simp only [JArr.append, findNamed]
      cases hname : pyGet mf "name" with
      | none =>
        simp only [hasName, nameOf, hname, Bool.false_or] at hn
        rw [ih hn]
        cases findNamed xs n <;> simp [JArr.append]
      | some mn =>
        simp only [hasName, nameOf, hname, Bool.or_eq_false_iff] at hn
        simp only [hn.1, Bool.false_eq_true, if_false]
        rw [ih hn.2]
        cases findNamed xs n <;> simp [JArr.append]
    | jnull => simp [wfItems] at hwf
    | jbool b => simp [wfItems] at hwf
    | jnum i => simp [wfItems] at hwf
    | jstr s => simp [wfItems] at hwf
    | jarr a => simp [wfItems] at hwf

theorem findNamed_notFound : ∀ (xs : JArr) (n : JValue),
    wfItems xs = true → hasName xs n = false → findNamed xs n = .notFound
  | .nil, n, _, _ => rfl
  | .cons m rest, n, hwf, hn => by
    cases m with
    | jobj mf =>
      simp only [wfItems, Bool.and_eq_true] at hwf
      obtain ⟨hm, hrest⟩ := hwf
      have ih := fun h2 => findNamed_notFound rest n hrest h2
      simp only [findNamed]
      cases hname : pyGet mf "name" with
      | none =>
        simp only [hasName, nameOf, hname, Bool.false_or] at hn
        simp [ih hn]
      | some mn =>
        simp only [hasName, nameOf, hname, Bool.or_eq_false_iff] at hn
        simp [hn.1, ih hn.2]
    | jnull => simp [wfItems] at hwf
    | jbool b => simp [wfItems] at hwf
    | jnum i => simp [wfItems] at hwf
    | jstr s => simp [wfItems] at hwf
    | jarr a => simp [wfItems] at hwf

theorem SubA_suffix : ∀ (sub pre xs : JArr), xs = pre.append sub →
    wfItems xs = true → distinctNames xs = true → SubA sub xs
  | .nil, _, _, _, _, _ => trivial
  | .cons item sub', pre, xs, hx, hwf, hd => by
    cases item with
    | jobj ifields =>
      have hparts : wfItems pre = true ∧ wfFields ifields = true ∧ wfItems sub' = true := by
        have h1 := wfItems_parts pre (.cons (.jobj ifields) sub')
        rw [← hx, hwf] at h1
        have h2 := (Bool.and_eq_true _ _).mp h1.symm
        have h3 := h2.2
        simp only [wfItems, Bool.and_eq_true] at h3
        exact ⟨h2.1, h3.1, h3.2⟩
      obtain ⟨hpre, hif, hsub'⟩ := hparts
      constructor
      · refine ⟨ifields, rfl, hif, ?_⟩
        cases hname : pyGet ifields "name" with
        | none => exact Or.inl rfl
        | some n =>
          refine Or.inr ⟨n, pre, sub', rfl, ?_, hx.symm⟩
          have hne : hasName pre n = false :=
            distinct_no_earlier pre (.jobj ifields) sub' n (hx ▸ hd)
              (by simp [nameOf, hname])
          rw [hx, findNamed_prepend_no_match pre (.cons (.jobj ifields) sub') n hpre hne,
              findNamed_cons_match hname (jeq_refl n)]
          simp [appendA_nil]
      · exact SubA_suffix sub' (pre.append (.cons (.jobj ifields) .nil)) xs
          (by rw [hx, appendA_assoc]; rfl) hwf hd
    | jnull =>
      exfalso
      have h1 := wfItems_parts pre (.cons .jnull sub')
      rw [← hx, hwf] at h1
      have h2 := (Bool.and_eq_true _ _).mp h1.symm
      simp [wfItems] at h2
    | jbool b =>
      exfalso
      have h1 := wfItems_parts pre (.cons (.jbool b) sub')
      rw [← hx, hwf] at h1
      have h2 := (Bool.and_eq_true _ _).mp h1.symm
      simp [wfItems] at h2
    | jnum i =>
      exfalso
      have h1 := wfItems_parts pre (.cons (.jnum i) sub')
      rw [← hx, hwf] at h1
      have h2 := (Bool.and_eq_true _ _).mp h1.symm
      simp [wfItems] at h2
    | jstr s =>
      exfalso
      have h1 := wfItems_parts pre (.cons (.jstr s) sub')
      rw [← hx, hwf] at h1
      have h2 := (Bool.and_eq_true _ _).mp h1.symm
      simp [wfItems] at h2
    | jarr a =>
      exfalso
      have h1 := wfItems_parts pre (.cons (.jarr a) sub')
      rw [← hx, hwf] at h1
      have h2 := (Bool.and_eq_true _ _).mp h1.symm
      simp [wfItems] at h2

theorem SubA_self (xs : JArr) (hwf : wfItems xs = true)
    (hd : distinctNames xs = true) : SubA xs xs :=
  SubA_suffix xs .nil xs rfl hwf hd

theorem appendF_nil : ∀ f : JFields, f.append .nil = f
  | .nil => rfl
  | .cons k v rest => by simp [JFields.append, appendF_nil rest]

theorem merge_step_null {acc : JFields} {k : String} {rest : JFields}
    (hpy : pyGet acc k = none) :
    merge acc (.cons k .jnull rest) = merge acc rest := by
  simp [merge, hpy]

theorem merge_step_copy {acc : JFields} {k : String} {v : JValue} {rest : JFields}
    (hpy : pyGet acc k = none) (hv : v ≠ .jnull) :
    merge acc (.cons k v rest) = merge (objSet acc k v) rest := by
  cases v with
  | jnull => exact absurd rfl hv
  | jbool b => simp [merge, hpy]
  | jnum i => simp [merge, hpy]
  | jstr s => simp [merge, hpy]
  | jarr a => simp [merge, hpy]
  | jobj f => simp [merge, hpy]

theorem merge_step_keep {acc : JFields} {k : String} {v : JValue} {rest : JFields}
    (hpy : pyGet acc k = some v) (hscal : isScalarV v = true) :
    merge acc (.cons k v rest) = merge acc rest := by
  cases v with
  | jnull => simp [isScalarV] at hscal
  | jbool b => simp [merge, hpy]
  | jnum i => simp [merge, hpy]
  | jstr s => simp [merge, hpy]
  | jarr a => simp [isScalarV] at hscal
  | jobj f => simp [isScalarV] at hscal

theorem merge_step_arr_ok {acc : JFields} {k : String} {mxs xs r : JArr} {rest : JFields}
    (hpy : pyGet acc k = some (.jarr mxs)) (hmi : mergeItems mxs xs = some r) :
    merge acc (.cons k (.jarr xs) rest) = merge (objSet acc k (.jarr r)) rest := by
  simp [merge, hpy, hmi]

theorem merge_step_obj_ok {acc : JFields} {k : String} {mfs vfs r : JFields} {rest : JFields}
    (hpy : pyGet acc k = some (.jobj mfs)) (hm : merge mfs vfs = some r) :
    merge acc (.cons k (.jobj vfs) rest) = merge (objSet acc k (.jobj r)) rest := by
  simp [merge, hpy, hm]

theorem keysFresh_nil : ∀ d : JFields, keysFresh d .nil = true
  | .nil => rfl
  | .cons k v rest => by simp [keysFresh, hasKey, keysFresh_nil rest]

theorem keysFresh_extend : ∀ (rest acc : JFields) (k : String) (v : JValue),
    keysFresh rest acc = true → hasKey rest k = false →
    keysFresh rest (acc.append (.cons k v .nil)) = true
  | .nil, _, _, _, _, _ => rfl
  | .cons k2 w rest2, acc, k, v, hf, hk => by
    simp only [keysFresh, Bool.and_eq_true] at hf
    simp only [hasKey, Bool.or_eq_false_iff, beq_eq_false_iff_ne] at hk
    simp only [keysFresh, Bool.and_eq_true]
    constructor
    · rw [hasKey_appendF]
      have h1 : hasKey acc k2 = false := by simpa using hf.1
      have h2 : (k == k2) = false := beq_eq_false_iff_ne.mpr (Ne.symm hk.1)
      simp [hasKey, h1, h2]
    · exact keysFresh_extend rest2 acc k v hf.2 hk.2

theorem merge_fresh : ∀ (d acc : JFields), keysFresh d acc = true →
    noNullTop d = true → keysDistinct d = true →
    merge acc d = some (acc.append d)
  | .nil, acc, _, _, _ => by rw [appendF_nil]; rfl
  | .cons k v rest, acc, hf, hn, hd => by
    simp only [keysFresh, Bool.and_eq_true] at hf
    simp only [keysDistinct, Bool.and_eq_true] at hd
    have hkacc : hasKey acc k = false := by simpa using hf.1
    have hkrest : hasKey rest k = false := by simpa using hd.1
    have hpy : pyGet acc k = none :=
      pyGet_none_of_raw_none (hasKey_false_objGetRaw acc k hkacc)
    cases v with
    | jnull => simp [noNullTop] at hn
    | jbool b =>
      have hn2 : noNullTop rest = true := by simpa [noNullTop] using hn
      rw [merge_step_copy hpy (by simp), objSet_fresh acc k _ hkacc,
        merge_fresh rest _ (keysFresh_extend rest acc k _ hf.2 hkrest) hn2 hd.2,
        appendF_assoc]
      rfl
    | jnum i =>
      have hn2 : noNullTop rest = true := by simpa [noNullTop] using hn
      rw [merge_step_copy hpy (by simp), objSet_fresh acc k _ hkacc,
        merge_fresh rest _ (keysFresh_extend rest acc k _ hf.2 hkrest) hn2 hd.2,
        appendF_assoc]
      rfl
    | jstr s =>
      have hn2 : noNullTop rest = true := by simpa [noNullTop] using hn
      rw [merge_step_copy hpy (by simp), objSet_fresh acc k _ hkacc,
        merge_fresh rest _ (keysFresh_extend rest acc k _ hf.2 hkrest) hn2 hd.2,
        appendF_assoc]
      rfl
    | jarr a =>
      have hn2 : noNullTop rest = true := by simpa [noNullTop] using hn
      rw [merge_step_copy hpy (by simp), objSet_fresh acc k _ hkacc,
        merge_fresh rest _ (keysFresh_extend rest acc k _ hf.2 hkrest) hn2 hd.2,
        appendF_assoc]
      rfl
    | jobj f =>
      have hn2 : noNullTop rest = true := by simpa [noNullTop] using hn
      rw [merge_step_copy hpy (by simp), objSet_fresh acc k _ hkacc,
        merge_fresh rest _ (keysFresh_extend rest acc k _ hf.2 hkrest) hn2 hd.2,
        appendF_assoc]
      rfl

mutual
theorem merge_self_sub : ∀ (f sub : JFields), wfFields f = true → SubF sub f →
    merge f sub = some f
  | f, .nil, _, _ => rfl
  | f, .cons k v sub', hwf, hsub => by
    obtain ⟨hget, hsub'⟩ := hsub
    cases v with
    | jnull =>
      rw [merge_step_null (pyGet_none_of_null hget)]
      exact merge_self_sub f sub' hwf hsub'
    | jbool b =>
      rw [merge_step_keep (pyGet_some_of_raw hget (by simp)) rfl]
      exact merge_self_sub f sub' hwf hsub'
    | jnum i =>
      rw [merge_step_keep (pyGet_some_of_raw hget (by simp)) rfl]
      exact merge_self_sub f sub' hwf hsub'
    | jstr s =>
      rw [merge_step_keep (pyGet_some_of_raw hget (by simp)) rfl]
      exact merge_self_sub f sub' hwf hsub'
    | jarr xs =>
      have hpy := pyGet_some_of_raw hget (by simp)
      have hwfv := wf_of_objGetRaw f k (.jarr xs) hwf hget
      simp only [wfVal, Bool.and_eq_true] at hwfv
      have hmi : mergeItems xs xs = some xs :=
        mergeItems_self_sub xs xs (SubA_self xs hwfv.1 hwfv.2)
      rw [merge_step_arr_ok hpy hmi, objSet_self f k _ hget]
      exact merge_self_sub f sub' hwf hsub'
    | jobj vfs =>
      have hpy := pyGet_some_of_raw hget (by simp)
      have hwfv := wf_of_objGetRaw f k (.jobj vfs) hwf hget
      simp only [wfVal] at hwfv
      have hm : merge vfs vfs = some vfs :=
        merge_self_sub vfs vfs hwfv (SubF_self vfs hwfv)
      rw [merge_step_obj_ok hpy hm, objSet_self f k _ hget]
      exact merge_self_sub f sub' hwf hsub'

theorem mergeItems_self_sub : ∀ (xs sub : JArr), SubA sub xs →
    mergeItems xs sub = some xs
  | _, .nil, _ => rfl
  | xs, .cons item sub', hsub => by
    obtain ⟨hitem, hsub'⟩ := hsub
    have h1 : mergelist xs item = some xs := mergelist_self xs item hitem
    simp only [mergeItems, h1]
    exact mergeItems_self_sub xs sub' hsub'

theorem mergelist_self : ∀ (xs : JArr) (item : JValue), ItemSelf xs item →
    mergelist xs item = some xs
  | xs, .jobj ifields, hitem => by
    obtain ⟨ifields', hform, hwf, hcase⟩ := hitem
    injection hform with he
    subst he
    rcases hcase with hnone | ⟨n, pre, post, hname, hfind, happ⟩
    · simp [mergelist, hnone]
    · have hm : merge ifields ifields = some ifields :=
        merge_self_sub ifields ifields hwf (SubF_self ifields hwf)
      simp only [mergelist, hname, hfind, hm]
      rw [happ]
  | _, .jnull, hitem => by
    exfalso; obtain ⟨_, hform, _⟩ := hitem; cases hform
  | _, .jbool b, hitem => by
    exfalso; obtain ⟨_, hform, _⟩ := hitem; cases hform
  | _, .jnum i, hitem => by
    exfalso; obtain ⟨_, hform, _⟩ := hitem; cases hform
  | _, .jstr s, hitem => by
    exfalso; obtain ⟨_, hform, _⟩ := hitem; cases hform
  | _, .jarr a, hitem => by
    exfalso; obtain ⟨_, hform, _⟩ := hitem; cases hform
end

/-- C8: named-list merging as `mergelist` implements it.  An incoming object
entry whose `name` equals the name of an entry of the list is deep-merged
into the first such entry in place (via `merge`, under which the already
present entry's scalar fields win while nested lists and objects keep
merging); an incoming entry matching no name is appended at the end, first
list's entries first.  The two examples of the spec evaluate accordingly:
merging `[{name:"a",x:1}]` with `[{name:"a",y:2}]` yields
`[{name:"a",x:1,y:2}]`, and `[{name:"a"}]` with
`[{name:"b"}]` yields both entries. -/
theorem mergelist_match_or_append (mlist : JArr) (ifields : JFields) (n : JValue)
    (hname : pyGet ifields "name" = some n) :
    (∀ (pre : JArr) (mfields : JFields) (post : JArr) (mn : JValue),
      mlist = pre.append (.cons (.jobj mfields) post) →
      wfItems pre = true → hasName pre n = false →
      pyGet mfields "name" = some mn → jeq mn n = true →
      mergelist mlist (.jobj ifields) =
        (match merge mfields ifields with
         | none => none
         | some mf1 => some (pre.append (.cons (.jobj mf1) post)))) ∧
    (wfItems mlist = true → hasName mlist n = false →
      mergelist mlist (.jobj ifields) =
        some (mlist.append (.cons (.jobj ifields) .nil))) ∧
    mergeItems
      (.cons (.jobj (.cons "name" (.jstr "a") (.cons "x" (.jnum 1) .nil))) .nil)
      (.cons (.jobj (.cons "name" (.jstr "a") (.cons "y" (.jnum 2) .nil))) .nil) =
      some (.cons
        (.jobj (.cons "name" (.jstr "a") (.cons "x" (.jnum 1) (.cons "y" (.jnum 2) .nil))))
        .nil) ∧
    mergeItems (.cons (.jobj (.cons "name" (.jstr "a") .nil)) .nil)
      (.cons (.jobj (.cons "name" (.jstr "b") .nil)) .nil) =
      some (.cons (.jobj (.cons "name" (.jstr "a") .nil))
        (.cons (.jobj (.cons "name" (.jstr "b") .nil)) .nil)) := by
  refine ⟨?_, ?_, rfl, rfl⟩
  · intro pre mfields post mn hml hpre hnm hm hj
    subst hml
    have hf : findNamed (pre.append (.cons (.jobj mfields) post)) n =
        .found pre mfields post := by
      rw [findNamed_prepend_no_match pre _ n hpre hnm, findNamed_cons_match hm hj]
      simp [appendA_nil]
    simp only [mergelist, hname, hf]
  · intro hwf hnm
    simp only [mergelist, hname, findNamed_notFound mlist n hwf hnm]

theorem mergelist_match_or_append_witness :
    mergelist (.cons (.jobj (.cons "name" (.jstr "a") (.cons "x" (.jnum 1) .nil))) .nil)
      (.jobj (.cons "name" (.jstr "a") (.cons "y" (.jnum 2) .nil))) =
      (match merge (.cons "name" (.jstr "a") (.cons "x" (.jnum 1) .nil))
          (.cons "name" (.jstr "a") (.cons "y" (.jnum 2) .nil)) with
       | none => none
       | some mf1 => some (JArr.nil.append (.cons (.jobj mf1) .nil))) ∧
    mergelist (.cons (.jobj (.cons "name" (.jstr "b") .nil)) .nil)
      (.jobj (.cons "name" (.jstr "a") .nil)) =
      some ((JArr.cons (.jobj (.cons "name" (.jstr "b") .nil)) .nil).append
        (.cons (.jobj (.cons "name" (.jstr "a") .nil)) .nil)) :=
  ⟨(mergelist_match_or_append
      (.cons (.jobj (.cons "name" (.jstr "a") (.cons "x" (.jnum 1) .nil))) .nil)
      (.cons "name" (.jstr "a") (.cons "y" (.jnum 2) .nil)) (.jstr "a") rfl).1
      .nil (.cons "name" (.jstr "a") (.cons "x" (.jnum 1) .nil)) .nil (.jstr "a")
      rfl rfl rfl rfl rfl,
   (mergelist_match_or_append (.cons (.jobj (.cons "name" (.jstr "b") .nil)) .nil)
      (.cons "name" (.jstr "a") .nil) (.jstr "a") rfl).2.1 rfl rfl⟩

/-- C9 counterexample: merging the document `{"k": null}` with itself
yields the empty document, not the original: `merge({}, d)` copies a key
only when its value is not `None`, so a null-valued key is dropped. -/
theorem self_merge_drops_null :
    selfMergeDoc (.cons "k" .jnull .nil) = some .nil ∧
    JFields.cons "k" .jnull .nil ≠ .nil :=
  ⟨rfl, fun h => JFields.noConfusion h⟩

/-- C9 amended: self-merge is the identity on well-formed documents: no
null value at top level (such keys are dropped), every list entry an
object, and no duplicate `name` inside one list (`mergelist` would fold a
later duplicate into the first match) — conditions every schema document in
the repository satisfies. -/
theorem self_merge_identity (d : JFields) (hwf : wfFields d = true)
    (hnn : noNullTop d = true) : selfMergeDoc d = some d := by
  unfold selfMergeDoc
  rw [merge_fresh d .nil (keysFresh_nil d) hnn (keysDistinct_of_wf d hwf)]
  exact merge_self_sub d d hwf (SubF_self d hwf)

theorem self_merge_identity_witness :
    selfMergeDoc (.cons "a" (.jnum 1)
      (.cons "l" (.jarr (.cons (.jobj (.cons "name" (.jstr "x") .nil)) .nil)) .nil)) =
    some (.cons "a" (.jnum 1)
      (.cons "l" (.jarr (.cons (.jobj (.cons "name" (.jstr "x") .nil)) .nil)) .nil)) :=
  self_merge_identity _ rfl rfl

end EosalMerge

